import Mathlib

/-!
Verification of the lyric-api conversion core (src/api/lyric-api.go).

This file gives a shallow embedding of the pure conversion logic of the Go
program into Lean 4 and proves/refutes the frozen claims about it.

Modelling conventions:
* A Go `string` is modelled as `List Char` (`GoStr`).  Go stores strings as
  UTF-8 bytes; all operations the program performs (splitting on '\n',
  trimming ASCII/Latin-1 whitespace, prefix tests, substring containment on
  well-formed UTF-8) coincide with the rune-level model used here.
* Go `int` is modelled as `Int` (unbounded).  Every number the program
  manipulates is parsed from short decimal digit strings and combined with
  `+`, `*`, `/`, `%`, far below the `int64` range, so overflow is not
  modelled.  `strconv.Atoi` on an all-digit string is modelled as the
  decimal value (the code ignores `Atoi`'s error return).
* Go integer division/remainder truncate toward zero; they are modelled by
  `Int.tdiv` / `Int.tmod`, which have the same semantics.
* The anchored regular expressions of the program (`lrcTimeRe`, `yrcLineRe`,
  `metaRe`, `wordInfoRe`) are modelled by dedicated total parsers that
  implement exactly the matching/submatch semantics of Go's regexp package
  on the patterns in question (including `.` not matching '\n' and the
  greedy/lazy repetition behaviour).
* `sort.Slice` (used by `parseLrcTimedLines`) guarantees only that the
  result is a permutation of the input that is non-decreasing under the
  comparator; it is documented as NOT stable.  The parser is therefore
  modelled parametrically in the sort routine: every theorem that does not
  depend on the order of equal-time entries is proved for an arbitrary
  routine satisfying the `sort.Slice` contract, and the stability question
  is settled by exhibiting a contract-satisfying routine that reorders
  equal-time entries.  `goSortByTime` (a stable structural sort) is the
  instantiation used to evaluate concrete examples.
-/

namespace LyricApi

/-- Go strings, as lists of characters. -/
abbrev GoStr := List Char

/-- Coerce a Lean string literal to the `GoStr` model. -/
def gs (s : String) : GoStr := s.toList

/-- Whitespace recognised by Go's `unicode.IsSpace` within the Latin-1
range: space, tab, newline, vertical tab, form feed, carriage return,
NEL (U+0085) and NBSP (U+00A0).  (Further Unicode space characters exist
but play no role in any claim.) -/
def isGoSpace (c : Char) : Bool :=
  c = ' ' || c = '\t' || c = '\n' || c = '\x0b' || c = '\x0c' || c = '\r' ||
  c = '\x85' || c = '\xa0'

/-- Model of Go `strings.TrimSpace`. -/
def trimSpace (s : GoStr) : GoStr :=
  ((s.dropWhile isGoSpace).reverse.dropWhile isGoSpace).reverse

/-- Model of Go `strings.Split(s, "\n")`: the list of chunks between
newlines.  Always returns at least one (possibly empty) chunk. -/
def splitNL : GoStr → List GoStr
  | [] => [[]]
  | c :: rest =>
    if c = '\n' then [] :: splitNL rest
    else
      match splitNL rest with
      | [] => [[c]]
      | p :: ps => (c :: p) :: ps

/-- Model of Go `strings.Contains(s, sub)`. -/
def containsSub (sub : GoStr) : GoStr → Bool
  | [] => sub.isPrefixOf []
  | c :: rest => sub.isPrefixOf (c :: rest) || containsSub sub rest

/-- Decimal value of a digit character. -/
def digitVal (c : Char) : Nat := c.toNat - '0'.toNat

/-- Model of `strconv.Atoi` on an all-digit string (the program only ever
feeds it digit runs captured by `\d+` / `\d{2}` / `\d{2,3}`, and discards
the error return). -/
def digitsToNat (s : GoStr) : Nat :=
  s.foldl (fun acc c => acc * 10 + digitVal c) 0

/-- Decimal digit expansion of a natural number, most significant digit
first (fuel-based so that it reduces in the kernel). -/
def natDigitsAux : Nat → Nat → GoStr → GoStr
  | 0, _, acc => acc
  | fuel + 1, n, acc =>
    if n < 10 then Nat.digitChar n :: acc
    else natDigitsAux fuel (n / 10) (Nat.digitChar (n % 10) :: acc)

/-- Decimal digits of `n`, as printed by Go's `fmt` verb `%d` for a
non-negative argument. -/
def natDigits (n : Nat) : GoStr := natDigitsAux (n + 1) n []

/-- Left-pad a digit string with zeros to width `w`. -/
def padZeros (w : Nat) (ds : GoStr) : GoStr :=
  List.replicate (w - ds.length) '0' ++ ds

/-- Model of Go `fmt.Sprintf("%0wd", n)`: zero-padded to width `w`, wider
values kept in full (magnitude is never truncated). -/
def goFmt0 (w : Nat) (n : Int) : GoStr :=
  if n < 0 then '-' :: padZeros (w - 1) (natDigits n.natAbs)
  else padZeros w (natDigits n.toNat)

/-- Model of the helper `abs` in the Go source. -/
def goAbs (x : Int) : Int := if x < 0 then -x else x

/-! ### Models of the program's regular expressions -/

/-- Submatch extraction for `lrcTimeRe = ^\[(\d{2}):(\d{2})\.(\d{2,3})\](.*)$`
applied via `FindStringSubmatch`.  Go's `\d{2,3}` is greedy: three digits
are consumed when the fourth character is `]`, else two.  `.` does not
match '\n' and `$` anchors at end of text, so a line containing '\n' after
the closing bracket does not match. -/
def lrcTimeSubmatch (l : GoStr) : Option (GoStr × GoStr × GoStr × GoStr) :=
  match l with
  | '[' :: m1 :: m2 :: ':' :: s1 :: s2 :: '.' :: f1 :: f2 :: rest =>
    if m1.isDigit && m2.isDigit && s1.isDigit && s2.isDigit &&
       f1.isDigit && f2.isDigit then
      match rest with
      | ']' :: content =>
        if '\n' ∈ content then none
        else some ([m1, m2], [s1, s2], [f1, f2], content)
      | f3 :: ']' :: content =>
        if f3.isDigit ∧ '\n' ∉ content then
          some ([m1, m2], [s1, s2], [f1, f2, f3], content)
        else none
      | _ => none
    else none
  | _ => none

/-- Maximal leading digit run of a string, and the remainder. -/
def spanDigits (s : GoStr) : GoStr × GoStr :=
  (s.takeWhile Char.isDigit, s.dropWhile Char.isDigit)

/-- Submatch extraction for `yrcLineRe = ^\[(\d+),(\d+)\](.*)$`. -/
def yrcLineSubmatch (l : GoStr) : Option (GoStr × GoStr × GoStr) :=
  match l with
  | '[' :: rest =>
    let p1 := spanDigits rest
    if p1.1 = [] then none
    else
      match p1.2 with
      | ',' :: r2 =>
        let p2 := spanDigits r2
        if p2.1 = [] then none
        else
          match p2.2 with
          | ']' :: content =>
            if '\n' ∈ content then none else some (p1.1, p2.1, content)
          | _ => none
      | _ => none
  | _ => none

/-- The metadata tag keys of `metaRe`, in the alternation's order. -/
def metaKeys : List GoStr :=
  [gs "ti", gs "ar", gs "al", gs "by", gs "offset", gs "kana", gs "re", gs "ve"]

/-- Submatch extraction for `metaRe = ^\[(ti|ar|al|by|offset|kana|re|ve):(.*?)\]$`.
The lazy group together with `\]$` makes group 2 everything strictly
between the colon and a final `]` (which must be the last character of the
line); `.` does not match '\n'.  No key of the alternation is a prefix of
another, so at most one alternative can apply. -/
def metaSubmatch (l : GoStr) : Option (GoStr × GoStr) :=
  match l with
  | '[' :: rest =>
    (metaKeys.filterMap (fun k =>
      if (k ++ [':']).isPrefixOf rest then
        let mid := rest.drop (k.length + 1)
        match mid.getLast? with
        | some ']' =>
          if '\n' ∈ mid.dropLast then none else some (k, mid.dropLast)
        | _ => none
      else none)).head?
  | _ => none

/-- At-position match of the suffix `\((\d+),(\d+)\)` of `wordInfoRe`:
returns the two digit groups and the rest of the string after `)`. -/
def parenMatch : GoStr → Option (GoStr × GoStr × GoStr)
  | '(' :: r =>
    let p1 := spanDigits r
    if p1.1 = [] then none
    else
      match p1.2 with
      | ',' :: r2 =>
        let p2 := spanDigits r2
        if p2.1 = [] then none
        else
          match p2.2 with
          | ')' :: r4 => some (p1.1, p2.1, r4)
          | _ => none
      | _ => none
  | _ => none

/-- Model of `wordInfoRe.FindAllStringSubmatch(s, -1)` for
`wordInfoRe = (.*?)\((\d+),(\d+)\)`: repeatedly, the lazy `(.*?)` captures
the shortest run of non-newline characters up to the first position where
`\((\d+),(\d+)\)` matches; matches are non-overlapping, left to right;
text after the last match is not part of any match.  (All call sites pass
newline-free segments, and a '\n' can never occur inside a match since
`.` and the digit classes exclude it.)  Fuel-based for kernel reduction;
the fuel `s.length + 1` is never exhausted since every step consumes at
least one character. -/
def findWordMatchesAux : Nat → GoStr → GoStr → List (GoStr × GoStr × GoStr)
  | 0, _, _ => []
  | fuel + 1, s, acc =>
    match s with
    | [] => []
    | c :: rest =>
      match parenMatch s with
      | some (d1, d2, r4) => (acc.reverse, d1, d2) :: findWordMatchesAux fuel r4 []
      | none => findWordMatchesAux fuel rest (c :: acc)

/-- All matches of `wordInfoRe` in `s`, as (text, startMs digits, durationMs
digits) triples of captured groups. -/
def findWordMatches (s : GoStr) : List (GoStr × GoStr × GoStr) :=
  findWordMatchesAux (s.length + 1) s []

/-- Model of the helper `isMetadataLine` in the Go source. -/
def isMetadataLine (line : GoStr) : Bool :=
  (gs "[ti:").isPrefixOf line || (gs "[ar:").isPrefixOf line ||
  (gs "[al:").isPrefixOf line || (gs "[by:").isPrefixOf line ||
  (gs "[offset:").isPrefixOf line || (gs "[kana:").isPrefixOf line ||
  (gs "[re:").isPrefixOf line || (gs "[ve:").isPrefixOf line

/-! ### Data model -/

/-- Go struct `WordInfo`. -/
structure WordInfo where
  Text : GoStr
  StartTime : Int
  Duration : Int
deriving DecidableEq

/-- Go struct `LineInfo`. -/
structure LineInfo where
  Words : List WordInfo
  StartTime : Int
  EndTime : Int
deriving DecidableEq

/-- Go struct `DivInfo`. -/
structure DivInfo where
  StartTime : Int
  EndTime : Int
  Lines : List LineInfo
deriving DecidableEq

/-- Go struct `MetaLine`. -/
structure MetaLine where
  Time : Int
  Content : GoStr
deriving DecidableEq

/-- The four raw text blobs of `LyricData.Data` consumed by the conversion
core (`Lrc`, `Trans`, `Yrc`, `Roma`). -/
structure LyricDataM where
  lrc : GoStr
  trans : GoStr
  yrc : GoStr
  roma : GoStr
deriving DecidableEq

/-- The three converted text fields of `UnifiedLyricResponse.Data` (the
song/singer/album strings are pure pass-through and irrelevant to the
claims).  Go's zero value for an unset field is the empty string. -/
structure RespDataM where
  lrc : GoStr
  eslrc : GoStr
  ttml : GoStr
deriving DecidableEq

/-! ### Time codec -/

/-- The millisecond-decoding arithmetic applied to the three numeric groups
of `lrcTimeRe` (duplicated verbatim in `parseLrcTimedLines` and
`mergeLrcWithTranslation`): two fractional digits are centiseconds, three
are milliseconds. -/
def decodeLrcGroups (g1 g2 g3 : GoStr) : Int :=
  let minutes : Int := digitsToNat g1
  let seconds : Int := digitsToNat g2
  let milliseconds : Int :=
    if g3.length = 2 then digitsToNat g3 * 10 else digitsToNat g3
  minutes * 60 * 1000 + seconds * 1000 + milliseconds

/-- Decode of a full LRC timestamp line: the millisecond value of the
bracketed time, if the line matches `lrcTimeRe`. -/
def lrcDecodeMs (l : GoStr) : Option Int :=
  (lrcTimeSubmatch l).map fun g => decodeLrcGroups g.1 g.2.1 g.2.2.1

/-- Model of `msToLrcTime`. -/
def msToLrcTime (ms : Int) : GoStr :=
  let seconds := ms.tdiv 1000
  let milliseconds := (ms.tmod 1000).tdiv 10
  let minutes := seconds.tdiv 60
  let seconds2 := seconds.tmod 60
  '[' :: goFmt0 2 minutes ++ ':' :: goFmt0 2 seconds2 ++ '.' :: goFmt0 2 milliseconds ++ [']']

/-- Model of `msToEnhancedLrcTime`. -/
def msToEnhancedLrcTime (ms : Int) : GoStr :=
  let seconds := ms.tdiv 1000
  let milliseconds := (ms.tmod 1000).tdiv 10
  let minutes := seconds.tdiv 60
  let seconds2 := seconds.tmod 60
  '<' :: goFmt0 2 minutes ++ ':' :: goFmt0 2 seconds2 ++ '.' :: goFmt0 2 milliseconds ++ ['>']

/-- Model of `msToTtmlTime`. -/
def msToTtmlTime (ms : Int) : GoStr :=
  let hours := ms.tdiv 3600000
  let ms1 := ms.tmod 3600000
  let minutes := ms1.tdiv 60000
  let ms2 := ms1.tmod 60000
  let seconds := ms2.tdiv 1000
  let milliseconds := ms2.tmod 1000
  if hours > 0 then
    goFmt0 2 hours ++ ':' :: goFmt0 2 minutes ++ ':' :: goFmt0 2 seconds ++
      '.' :: goFmt0 3 milliseconds
  else
    goFmt0 2 minutes ++ ':' :: goFmt0 2 seconds ++ '.' :: goFmt0 3 milliseconds

/-! ### Metadata parser -/

/-- Insertion of a key/value pair into the metadata map: Go map semantics,
last write to a key wins.  (Go's map iteration order is unspecified; the
model keeps first-insertion order, and no claim depends on the order.) -/
def metaUpsert (m : List (GoStr × GoStr)) (k v : GoStr) : List (GoStr × GoStr) :=
  if m.any (fun kv => kv.1 = k) then
    m.map (fun kv => if kv.1 = k then (k, v) else kv)
  else m ++ [(k, v)]

/-- Model of `parseLrcMeta`. -/
def parseLrcMeta (lrcContent : GoStr) : List (GoStr × GoStr) :=
  (splitNL lrcContent).foldl
    (fun meta line =>
      match metaSubmatch line with
      | some kv => metaUpsert meta (trimSpace kv.1) (trimSpace kv.2)
      | none => meta)
    []

/-! ### YRC parser -/

/-- The per-match body of the word loop in `parseYrcLine`: a zero-duration
word is forced to 1 ms when its text is non-blank and dropped entirely
when blank; other words are kept as parsed. -/
def processYrcWord (m : GoStr × GoStr × GoStr) : Option WordInfo :=
  let text := m.1
  let wordStartTime : Int := digitsToNat m.2.1
  let wordDuration : Nat := digitsToNat m.2.2
  if wordDuration = 0 then
    if trimSpace text ≠ [] then some ⟨text, wordStartTime, 1⟩ else none
  else some ⟨text, wordStartTime, (wordDuration : Int)⟩

/-- The words of a YRC segment text that survive zero-duration correction. -/
def survivingWords (content : GoStr) : List WordInfo :=
  (findWordMatches content).filterMap processYrcWord

/-- Model of `parseYrcLine`. -/
def parseYrcLine (line : GoStr) : Except GoStr LineInfo :=
  match yrcLineSubmatch line with
  | none => .error (gs "invalid YRC line format: " ++ line)
  | some g =>
    let startTime : Int := digitsToNat g.1
    let duration : Nat := digitsToNat g.2.1
    let content := g.2.2
    let words := survivingWords content
    let words2 :=
      if words = [] ∧ content ≠ [] then
        [⟨content, startTime, if duration = 0 then 1 else (duration : Int)⟩]
      else words
    .ok ⟨words2, startTime, startTime + (duration : Int)⟩

/-- Model of `parseYrcToLines`. -/
def parseYrcToLines (yrcContent : GoStr) : List LineInfo :=
  (splitNL yrcContent).filterMap fun line =>
    if ¬((gs "[").isPrefixOf line) ∨ isMetadataLine line then none
    else
      match parseYrcLine line with
      | .error _ => none
      | .ok lineInfo => if lineInfo.Words = [] then none else some lineInfo

/-! ### LRC timeline parser -/

/-- The retained timed lines of an LRC-style text, in input order: the body
of the line loop of `parseLrcTimedLines` before the final sort. -/
def collectTimedLines (lrcContent : GoStr) : List MetaLine :=
  (splitNL lrcContent).filterMap fun l =>
    let line := trimSpace l
    if line = [] then none
    else
      match lrcTimeSubmatch line with
      | some g =>
        let totalMs := decodeLrcGroups g.1 g.2.1 g.2.2.1
        let content := trimSpace g.2.2.2
        if content ≠ [] ∧ content ≠ gs "//" ∧
           ¬(containsSub (gs "QQ音乐") content = true) ∧
           ¬(containsSub (gs "制作") content = true) then
          some ⟨totalMs, content⟩
        else none
      | none => none

/-- Model of `parseLrcTimedLines`, parametric in the routine used for
`sort.Slice(timedLines, by Time)`.  `sort.Slice` promises a permutation
that is non-decreasing under the comparator and nothing more (it is not
stable), so theorems quantify over the routine. -/
def parseLrcTimedLinesWith (sortFn : List MetaLine → List MetaLine)
    (lrcContent : GoStr) : List MetaLine :=
  if trimSpace lrcContent = [] then []
  else sortFn (collectTimedLines lrcContent)

/-- The stable sort by `Time` used to run the model on concrete inputs; it
satisfies the `sort.Slice` contract. -/
def goSortByTime (l : List MetaLine) : List MetaLine :=
  List.insertionSort (fun a b => a.Time ≤ b.Time) l

/-! ### Line matcher -/

/-- The index-tracking loop of `findClosestLine`: `st = (minDiff, bestIndex)`. -/
def findClosestAux (time : Int) : List MetaLine → Int → Int × Int → Int × Int
  | [], _, st => st
  | l :: rest, i, st =>
    let timeDiff := goAbs (l.Time - time)
    if timeDiff < st.1 then findClosestAux time rest (i + 1) (timeDiff, i)
    else findClosestAux time rest (i + 1) st

/-- Model of `findClosestLine` (translation matching, threshold 500 ms,
strict): returns the content of the first entry attaining the minimal
time difference when that difference is below 500, else the empty string. -/
def findClosestLine (time : Int) (lines : List MetaLine) : GoStr :=
  let r := findClosestAux time lines 0 (500, -1)
  if r.2 ≠ -1 then
    ((lines.get? r.2.toNat).map MetaLine.Content).getD []
  else []

/-- Model of `matchRomajiLine` (romanization line matching, threshold
100 ms inclusive, first in source order wins). -/
def matchRomajiLine (mainLineTime : Int) : List LineInfo → Option LineInfo
  | [] => none
  | romaLine :: rest =>
    if goAbs (romaLine.StartTime - mainLineTime) ≤ 100 then some romaLine
    else matchRomajiLine mainLineTime rest

/-! ### Paragraph grouper and duration estimator -/

/-- Effective content end of a line: end of its last word when words exist,
else the nominal line end.  This three-line pattern is repeated verbatim in
`groupLinesIntoDivs` (twice), `calculateSongDuration` and
`convertYrcToTtml`. -/
def lineContentEnd (l : LineInfo) : Int :=
  match l.Words.getLast? with
  | some lastWord => lastWord.StartTime + lastWord.Duration
  | none => l.EndTime

/-- Closing a paragraph: its `EndTime` becomes the effective content end of
its last line (the Go code indexes `Lines[len-1]`, which is always
non-empty there; the `none` fallback is unreachable). -/
def closeDiv (d : DivInfo) : DivInfo :=
  { d with EndTime := match d.Lines.getLast? with
                      | some lastLine => lineContentEnd lastLine
                      | none => d.EndTime }

/-- The loop of `groupLinesIntoDivs`: `prev` is `lines[i-1]` (always the
line handled in the previous iteration), `cur` the open paragraph. -/
def groupLinesAux (maxGap : Int) : List LineInfo → LineInfo → DivInfo → List DivInfo
  | [], _, cur => if cur.Lines ≠ [] then [closeDiv cur] else []
  | l :: rest, prev, cur =>
    let gap := l.StartTime - lineContentEnd prev
    if gap > maxGap then
      closeDiv cur :: groupLinesAux maxGap rest l ⟨l.StartTime, 0, [l]⟩
    else
      groupLinesAux maxGap rest l { cur with Lines := cur.Lines ++ [l] }

/-- Model of `groupLinesIntoDivs`. -/
def groupLinesIntoDivs (lines : List LineInfo) (maxGap : Int) : List DivInfo :=
  match lines with
  | [] => []
  | l0 :: rest => groupLinesAux maxGap rest l0 ⟨l0.StartTime, 0, [l0]⟩

/-- Model of `calculateSongDuration`. -/
def calculateSongDuration (lines : List LineInfo) : Int :=
  match lines with
  | [] => 0
  | _ =>
    (lines.foldl (fun maxEndTime line => max maxEndTime (lineContentEnd line)) 0) + 1000

/-! ### Merged-LRC serializer -/

/-- The bytes the merge loop appends after an original (trimmed, non-blank)
line: nothing for metadata lines and lines that do not match `lrcTimeRe`;
for a matching line with decoded time `t`, the re-encoded timestamp
`msToLrcTime t` followed by the translation text and a newline, when
`findClosestLine` finds one. -/
def mergeFollower (translations : List MetaLine) (line : GoStr) : GoStr :=
  if isMetadataLine line then []
  else
    match lrcTimeSubmatch line with
    | some g =>
      let totalMs := decodeLrcGroups g.1 g.2.1 g.2.2.1
      let transText := findClosestLine totalMs translations
      if transText ≠ [] then msToLrcTime totalMs ++ transText ++ ['\n'] else []
    | none => []

/-- The line loop of `mergeLrcWithTranslation`: each non-blank trimmed line
is written followed by '\n', then (for lyric lines) its translation line. -/
def mergeBody (translations : List MetaLine) : List GoStr → GoStr
  | [] => []
  | l :: rest =>
    let line := trimSpace l
    if line = [] then mergeBody translations rest
    else line ++ '\n' :: (mergeFollower translations line ++ mergeBody translations rest)

/-- Model of `mergeLrcWithTranslation` (parametric in the sort routine used
inside `parseLrcTimedLines`, see `parseLrcTimedLinesWith`). -/
def mergeLrcWithTranslation (sortFn : List MetaLine → List MetaLine)
    (originalLrc transLrc : GoStr) : GoStr :=
  if trimSpace transLrc = [] then originalLrc
  else
    let translations := parseLrcTimedLinesWith sortFn transLrc
    mergeBody translations (splitNL originalLrc)

/-! ### TTML serializer -/

/-- One word `<span>` of the TTML output. -/
def ttmlWordSpan (w : WordInfo) : GoStr :=
  gs "                <span begin=\"" ++ msToTtmlTime w.StartTime ++
  gs "\" end=\"" ++ msToTtmlTime (w.StartTime + w.Duration) ++ gs "\">" ++
  w.Text ++ gs "</span>\n"

/-- The optional translation `<span>` of a TTML line. -/
def ttmlTransSpan (translations : List MetaLine) (line : LineInfo) : GoStr :=
  let transText := findClosestLine line.StartTime translations
  if transText ≠ [] then
    gs "                <span ttm:role=\"x-translation\" xml:lang=\"zh-CN\">" ++
    transText ++ gs "</span>\n"
  else []

/-- The optional romanization `<span>` of a TTML line.  The Go loop appends
the original (untrimmed) text of every word whose trimmed text is
non-blank, then trims the concatenation and emits it when non-blank. -/
def ttmlRomaSpan (parsedRomaji : List LineInfo) (line : LineInfo) : GoStr :=
  match matchRomajiLine line.StartTime parsedRomaji with
  | none => []
  | some romaLine =>
    let kept := romaLine.Words.filter (fun w => trimSpace w.Text ≠ [])
    if kept ≠ [] then
      let romaText := trimSpace (kept.flatMap WordInfo.Text)
      if romaText ≠ [] then
        gs "                <span ttm:role=\"x-roman\">" ++ romaText ++ gs "</span>\n"
      else []
    else []

/-- One `<p>` element of the TTML output, with its sequential line key. -/
def ttmlLineOut (translations : List MetaLine) (parsedRomaji : List LineInfo)
    (lineCounter : Nat) (line : LineInfo) : GoStr :=
  gs "            <p begin=\"" ++ msToTtmlTime line.StartTime ++
  gs "\" end=\"" ++ msToTtmlTime (lineContentEnd line) ++
  gs "\" ttm:agent=\"v1\" itunes:key=\"L" ++ natDigits lineCounter ++ gs "\">\n" ++
  (line.Words.flatMap ttmlWordSpan) ++
  ttmlTransSpan translations line ++
  ttmlRomaSpan parsedRomaji line ++
  gs "            </p>\n"

/-- The lines of one `<div>`, threading the document-wide line counter. -/
def ttmlLinesOut (translations : List MetaLine) (parsedRomaji : List LineInfo) :
    Nat → List LineInfo → GoStr × Nat
  | lineCounter, [] => ([], lineCounter)
  | lineCounter, line :: rest =>
    let r := ttmlLinesOut translations parsedRomaji (lineCounter + 1) rest
    (ttmlLineOut translations parsedRomaji lineCounter line ++ r.1, r.2)

/-- The `<div>` elements; a blank line separates consecutive divs (the Go
loop appends "\n" after every div except the last). -/
def ttmlDivsOut (translations : List MetaLine) (parsedRomaji : List LineInfo) :
    Nat → List DivInfo → GoStr
  | _, [] => []
  | lineCounter, div :: rest =>
    let r := ttmlLinesOut translations parsedRomaji lineCounter div.Lines
    gs "        <div begin=\"" ++ msToTtmlTime div.StartTime ++
    gs "\" end=\"" ++ msToTtmlTime div.EndTime ++ gs "\">\n" ++
    r.1 ++ gs "        </div>\n" ++
    (if rest ≠ [] then ['\n'] else []) ++
    ttmlDivsOut translations parsedRomaji r.2 rest

/-- Model of `convertYrcToTtml`.  Fails (with the Go error message) exactly
when no valid YRC line was parsed; the string-builder pool is a pure
allocation amortisation and needs no modelling. -/
def convertYrcToTtml (sortFn : List MetaLine → List MetaLine)
    (data : LyricDataM) : Except GoStr GoStr :=
  let translations := parseLrcTimedLinesWith sortFn data.trans
  let parsedLines := parseYrcToLines data.yrc
  let parsedRomaji := parseYrcToLines data.roma
  if parsedLines = [] then .error (gs "未找到有效的YRC歌词行")
  else
    .ok (gs "<?xml version=\"1.0\" encoding=\"UTF-8\"?>\n" ++
      gs "<tt xmlns=\"http://www.w3.org/ns/ttml\" xmlns:ttm=\"http://www.w3.org/ns/ttml#metadata\" xmlns:itunes=\"http://music.apple.com/lyric-ttml-internal\" itunes:timing=\"Word\">\n" ++
      gs "    <head>\n        <metadata>\n" ++
      gs "            <ttm:agent type=\"person\" xml:id=\"v1\"/>\n" ++
      gs "        </metadata>\n    </head>\n" ++
      gs "    <body dur=\"" ++ msToTtmlTime (calculateSongDuration parsedLines) ++ gs "\">\n" ++
      ttmlDivsOut translations parsedRomaji 1 (groupLinesIntoDivs parsedLines 1000) ++
      gs "    </body>\n</tt>\n")

/-! ### Enhanced-LRC serializer -/

/-- The output written for one raw YRC line by `convertYrcToEnhancedLrc`
(the line is already trimmed, non-blank and not a metadata line): skipped
when unparseable or wordless; otherwise the line timestamp, per-word
markers, closing marker, newline, and the optional translation line. -/
def eslrcLineOut (translations : List MetaLine) (hasTranslation : Bool)
    (line : GoStr) : GoStr :=
  match parseYrcLine line with
  | .error _ => []
  | .ok lineInfo =>
    if lineInfo.Words = [] then []
    else
      let mainTimestamp := msToLrcTime lineInfo.StartTime
      mainTimestamp ++
      lineInfo.Words.flatMap (fun w => msToEnhancedLrcTime w.StartTime ++ w.Text) ++
      (match lineInfo.Words.getLast? with
       | some lastWord => msToEnhancedLrcTime (lastWord.StartTime + lastWord.Duration)
       | none => []) ++
      '\n' ::
      (if hasTranslation then
        let translation := findClosestLine lineInfo.StartTime translations
        if translation ≠ [] then mainTimestamp ++ translation ++ ['\n'] else []
      else [])

/-- Model of `convertYrcToEnhancedLrc`.  The Go function never returns a
non-nil error.  Metadata tags except `kana` are emitted first (Go iterates
the map in unspecified order; the model uses first-insertion order, and no
claim depends on it).  The `romaContent` parameter is unused, as in the
source. -/
def convertYrcToEnhancedLrc (sortFn : List MetaLine → List MetaLine)
    (yrcContent lrcContent transContent romaContent : GoStr) : Except GoStr GoStr :=
  let meta := parseLrcMeta lrcContent
  let translations := parseLrcTimedLinesWith sortFn transContent
  let hasTranslation := translations.length > 0
  .ok ((meta.filter (fun kv => kv.1 ≠ gs "kana")).flatMap
        (fun kv => '[' :: kv.1 ++ ':' :: kv.2 ++ gs "]\n") ++
      (splitNL yrcContent).flatMap (fun l =>
        let line := trimSpace l
        if line = [] ∨ isMetadataLine line then []
        else eslrcLineOut translations hasTranslation line))

/-! ### Response builder -/

/-- Model of the `buildResponse` closure in `lyricHandler`: the merged LRC
is always computed; ESLRC and TTML are attempted only when the YRC input is
non-empty, and each conversion's failure leaves only its own field at the
zero value (the Go code logs the error and moves on). -/
def buildResponse (sortFn : List MetaLine → List MetaLine)
    (data : LyricDataM) : RespDataM :=
  let lrcOut := mergeLrcWithTranslation sortFn data.lrc data.trans
  if data.yrc ≠ [] then
    let ttmlOut :=
      match convertYrcToTtml sortFn data with
      | .ok ttml => ttml
      | .error _ => []
    let eslrcOut :=
      match convertYrcToEnhancedLrc sortFn data.yrc data.lrc data.trans data.roma with
      | .ok eslrc => eslrc
      | .error _ => []
    ⟨lrcOut, eslrcOut, ttmlOut⟩
  else ⟨lrcOut, [], []⟩

/-! ### Specification-side definitions (used to state refinement claims) -/

/-- Spec-side paragraph splitter (§4.6 of the spec): a new paragraph starts
at a line exactly when its start minus the effective content end of the
previous line strictly exceeds the gap threshold. -/
def splitByGapAux (maxGap : Int) : List LineInfo → LineInfo → List LineInfo → List (List LineInfo)
  | [], _, cur => [cur]
  | l :: rest, prev, cur =>
    if l.StartTime - lineContentEnd prev > maxGap then
      cur :: splitByGapAux maxGap rest l [l]
    else splitByGapAux maxGap rest l (cur ++ [l])

/-- Spec-side paragraph grouping of a line sequence. -/
def splitByGap (maxGap : Int) : List LineInfo → List (List LineInfo)
  | [] => []
  | l :: rest => splitByGapAux maxGap rest l [l]

/-- Spec-side view of the merged-LRC serializer (§4.8): the output lines
contributed by one (trimmed, non-blank) original line — the line itself,
followed by a translation line when the original is a non-metadata
timestamp line whose decoded time has a translation within threshold. -/
def mergeEmittedLines (translations : List MetaLine) (line : GoStr) : List GoStr :=
  line ::
    (if isMetadataLine line then []
     else
       match lrcTimeSubmatch line with
       | some g =>
         let totalMs := decodeLrcGroups g.1 g.2.1 g.2.2.1
         let transText := findClosestLine totalMs translations
         if transText ≠ [] then [msToLrcTime totalMs ++ transText] else []
       | none => [])

/-- A sort routine that satisfies the `sort.Slice` contract (permutation,
non-decreasing by `Time`) but reverses the relative order of equal-time
entries; used to settle the stability question of claim C4. -/
def badSortByTime (l : List MetaLine) : List MetaLine := goSortByTime l.reverse

instance : IsTotal MetaLine (fun a b => a.Time ≤ b.Time) :=
  ⟨fun a b => le_total a.Time b.Time⟩

instance : IsTrans MetaLine (fun a b => a.Time ≤ b.Time) :=
  ⟨fun _ _ _ hab hbc => le_trans hab hbc⟩

/-! ## Helper lemmas -/

theorem matchRomaji_find_eq (t : Int) (ls : List LineInfo) :
    matchRomajiLine t ls = ls.find? (fun l => goAbs (l.StartTime - t) ≤ 100) := by
  induction ls with
  | nil => rfl
  | cons a rest ih =>
    by_cases h : goAbs (a.StartTime - t) ≤ 100 <;>
      simp [matchRomajiLine, List.find?, h, ih]

theorem processYrcWord_some_duration (m : GoStr × GoStr × GoStr) (w : WordInfo)
    (h : processYrcWord m = some w) : 1 ≤ w.Duration := by
  unfold processYrcWord at h
  by_cases h0 : digitsToNat m.2.2 = 0
  · rw [if_pos h0] at h
    by_cases ht : trimSpace m.1 ≠ []
    · rw [if_pos ht] at h
      injection h with h
      subst h
      simp
    · rw [if_neg ht] at h
      exact absurd h (by simp)
  · rw [if_neg h0] at h
    injection h with h
    subst h
    show (1 : Int) ≤ (digitsToNat m.2.2 : Int)
    exact_mod_cast Nat.one_le_iff_ne_zero.mpr h0

theorem parseYrcLine_ok_words (line : GoStr) (li : LineInfo)
    (h : parseYrcLine line = .ok li) : ∀ w ∈ li.Words, 1 ≤ w.Duration := by
  unfold parseYrcLine at h
  cases hsub : yrcLineSubmatch line with
  | none => simp [hsub] at h
  | some g =>
    simp only [hsub] at h
    injection h with h
    subst h
    intro w hw
    simp only at hw
    split at hw
    · simp only [List.mem_singleton] at hw
      subst hw
      simp only
      split
      · simp
      · rename_i hdz
        have : 1 ≤ digitsToNat g.2.1 := Nat.one_le_iff_ne_zero.mpr hdz
        exact_mod_cast this
    · exact processYrcWord_some_duration _ w (List.mem_filterMap.mp hw).choose_spec.2

theorem parseYrcToLines_mem (yrc : GoStr) (li : LineInfo)
    (h : li ∈ parseYrcToLines yrc) :
    li.Words ≠ [] ∧ ∃ line, parseYrcLine line = .ok li := by
  unfold parseYrcToLines at h
  rcases List.mem_filterMap.mp h with ⟨l, -, hl⟩
  split at hl
  · simp at hl
  · cases hp : parseYrcLine l with
    | error e => simp [hp] at hl
    | ok lineInfo =>
      simp only [hp] at hl
      split at hl
      · simp at hl
      · rename_i hne
        simp only [Option.some_inj] at hl
        subst hl
        exact ⟨hne, l, hp⟩

/-! ## Claims C5, C3, C8, C10 -/

/-- Claim C5: romanization line matching (`matchRomajiLine`) returns the
first line in source order whose start time is within 100 ms (inclusive)
of the query — it equals `List.find?` of the in-range predicate, so a
first-in-range line wins even when a later line is strictly closer — and
returns `none` (no error) when no line is in range.  The concrete conjunct
shows first-in-range beating a later exact match. -/
theorem matchRomajiLine_first_in_range :
    (∀ (t : Int) (ls : List LineInfo),
      matchRomajiLine t ls = ls.find? (fun l => goAbs (l.StartTime - t) ≤ 100))
    ∧ (∀ (t : Int) (pre : List LineInfo) (a : LineInfo) (post : List LineInfo),
        (∀ p ∈ pre, ¬(goAbs (p.StartTime - t) ≤ 100)) →
        goAbs (a.StartTime - t) ≤ 100 →
        matchRomajiLine t (pre ++ a :: post) = some a)
    ∧ (∀ (t : Int) (ls : List LineInfo),
        (∀ l ∈ ls, ¬(goAbs (l.StartTime - t) ≤ 100)) →
        matchRomajiLine t ls = none)
    ∧ matchRomajiLine 150 [⟨[], 60, 0⟩, ⟨[], 150, 0⟩] = some ⟨[], 60, 0⟩ := by
  refine ⟨matchRomaji_find_eq, ?_, ?_, by decide⟩
  · intro t pre a post hpre ha
    induction pre with
    | nil => simp [matchRomajiLine, ha]
    | cons p ps ih =>
      have hp := hpre p (by simp)
      simp only [List.cons_append, matchRomajiLine, hp, if_neg hp]
      exact ih fun q hq => hpre q (by simp [hq])
  · intro t ls h
    induction ls with
    | nil => rfl
    | cons a rest ih =>
      have ha := h a (by simp)
      simp only [matchRomajiLine, if_neg ha]
      exact ih fun q hq => h q (by simp [hq])

/-- Witness for C5: with lines starting at 300 (out of range for query
150) and 170 (in range, difference 20), the first in-range line is
returned. -/
theorem matchRomajiLine_first_in_range_witness :
    matchRomajiLine 150 [⟨[], 300, 0⟩, ⟨[], 170, 0⟩] = some ⟨[], 170, 0⟩ :=
  matchRomajiLine_first_in_range.2.1 150 [⟨[], 300, 0⟩] ⟨[], 170, 0⟩ []
    (by decide) (by decide)

/-- Counterexample to claim C3 as stated: on the YRC line `[0,5] (0,0)`
the word pattern does produce one match (blank text, zero duration), which
is dropped by zero-duration correction; the code nevertheless synthesizes
the whole-line word spanning the full segment text.  The claim asserts
such a line "is never given a synthesized whole-line word". -/
theorem parseYrcLine_synth_despite_matches :
    findWordMatches (gs " (0,0)") = [(gs " ", gs "0", gs "0")] ∧
    survivingWords (gs " (0,0)") = [] ∧
    parseYrcLine (gs "[0,5] (0,0)") = .ok ⟨[⟨gs " (0,0)", 0, 5⟩], 0, 5⟩ := by
  refine ⟨by decide, by decide, rfl⟩

/-- Claim C3 (amended): `parseYrcLine` synthesizes the single whole-line
word (text = whole segment, start = header start, duration = header
duration with minimum 1 ms) exactly when no parsed word SURVIVES
zero-duration correction and the segment text is non-empty — not when no
word-pattern match was found: a line whose matches were all dropped gets
the synthesized word too. -/
theorem parseYrcLine_synth_iff_no_survivors :
    ∀ (line d1 d2 content : GoStr) (li : LineInfo),
      yrcLineSubmatch line = some (d1, d2, content) →
      parseYrcLine line = .ok li →
      ((survivingWords content = [] ∧ content ≠ []) →
        li.Words = [⟨content, (digitsToNat d1 : Int),
          if digitsToNat d2 = 0 then 1 else (digitsToNat d2 : Int)⟩])
      ∧ (survivingWords content ≠ [] → li.Words = survivingWords content)
      ∧ (content = [] → li.Words = []) := by
  intro line d1 d2 content li hsub hok
  unfold parseYrcLine at hok
  rw [hsub] at hok
  injection hok with hok
  subst hok
  refine ⟨fun h => ?_, fun h => ?_, fun h => ?_⟩
  · simp only [if_pos h]
  · simp only [ne_eq, h, false_and, if_neg, not_false_eq_true]
  · have : ¬(survivingWords content = [] ∧ content ≠ []) := by simp [h]
    simp only [if_neg this]
    subst h
    rfl

/-- Witness for C3 (amended): on `[528,20]a(528,0)` one word survives
(after correction to 1 ms), so the parsed words are exactly the survivors
and no whole-line word is synthesized. -/
theorem parseYrcLine_synth_iff_no_survivors_witness :
    (⟨[⟨gs "a", 528, 1⟩], 528, 548⟩ : LineInfo).Words =
      survivingWords (gs "a(528,0)") :=
  (parseYrcLine_synth_iff_no_survivors (gs "[528,20]a(528,0)")
    (gs "528") (gs "20") (gs "a(528,0)") ⟨[⟨gs "a", 528, 1⟩], 528, 548⟩
    (by decide) rfl).2.1 (by decide)

/-- Claim C8: a YRC word match with duration 0 is kept with duration
exactly 1 when its text is non-blank and dropped when its text is blank;
consequently every word of a parsed line with non-blank text has duration
at least 1. -/
theorem yrc_zero_duration_correction :
    (∀ (text ds dz : GoStr), digitsToNat dz = 0 →
      (trimSpace text ≠ [] →
        processYrcWord (text, ds, dz) = some ⟨text, (digitsToNat ds : Int), 1⟩)
      ∧ (trimSpace text = [] → processYrcWord (text, ds, dz) = none))
    ∧ (∀ (line : GoStr) (li : LineInfo) (w : WordInfo),
        parseYrcLine line = .ok li → w ∈ li.Words →
        trimSpace w.Text ≠ [] → 1 ≤ w.Duration) := by
  constructor
  · intro text ds dz hz
    constructor
    · intro ht
      simp [processYrcWord, hz, ht]
    · intro ht
      simp [processYrcWord, hz, ht]
  · intro line li w hok hw _
    exact parseYrcLine_ok_words line li hok w hw

/-- Witness for C8: the zero-duration non-blank word `a(528,0)` of line
`[528,20]a(528,0)` is corrected to duration 1; a zero-duration blank word
is dropped. -/
theorem yrc_zero_duration_correction_witness :
    (processYrcWord (gs "a", gs "528", gs "0") = some ⟨gs "a", 528, 1⟩) ∧
    (processYrcWord (gs " ", gs "5", gs "0") = none) ∧
    (1 : Int) ≤ (⟨gs "a", 528, 1⟩ : WordInfo).Duration := by
  refine ⟨(yrc_zero_duration_correction.1 (gs "a") (gs "528") (gs "0")
      (by decide)).1 (by decide),
    (yrc_zero_duration_correction.1 (gs " ") (gs "5") (gs "0")
      (by decide)).2 (by decide),
    yrc_zero_duration_correction.2 (gs "[528,20]a(528,0)")
      ⟨[⟨gs "a", 528, 1⟩], 528, 548⟩ ⟨gs "a", 528, 1⟩
      rfl (by decide) (by decide)⟩

/-- Claim C10 (implicit): every line returned by `parseYrcToLines` has at
least one word, and every word it contains — blank-text words with
positive parsed duration and synthesized whole-line words included — has
duration at least 1 ms. -/
theorem parseYrcToLines_words_invariant :
    ∀ (yrc : GoStr) (li : LineInfo), li ∈ parseYrcToLines yrc →
      li.Words ≠ [] ∧ ∀ w ∈ li.Words, 1 ≤ w.Duration := by
  intro yrc li h
  obtain ⟨hne, line, hok⟩ := parseYrcToLines_mem yrc li h
  exact ⟨hne, parseYrcLine_ok_words line li hok⟩

/-- Witness for C10: a parsed line holding a blank-text word of positive
duration (kept as-is) still satisfies the invariant. -/
theorem parseYrcToLines_words_invariant_witness :
    (⟨[⟨gs "a", 0, 5⟩, ⟨gs " ", 5, 5⟩], 0, 10⟩ : LineInfo).Words ≠ [] ∧
    ∀ w ∈ (⟨[⟨gs "a", 0, 5⟩, ⟨gs " ", 5, 5⟩], 0, 10⟩ : LineInfo).Words,
      1 ≤ w.Duration :=
  parseYrcToLines_words_invariant (gs "[0,10]a(0,5) (5,5)")
    ⟨[⟨gs "a", 0, 5⟩, ⟨gs " ", 5, 5⟩], 0, 10⟩ (by decide)

/-! ## Claim C7 -/

theorem groupLinesAux_map_lines (maxGap : Int) :
    ∀ (rest : List LineInfo) (prev : LineInfo) (cur : DivInfo), cur.Lines ≠ [] →
      (groupLinesAux maxGap rest prev cur).map DivInfo.Lines =
        splitByGapAux maxGap rest prev cur.Lines := by
  intro rest
  induction rest with
  | nil =>
    intro prev cur h
    simp [groupLinesAux, splitByGapAux, h, closeDiv]
  | cons l rs ih =>
    intro prev cur h
    by_cases hgap : l.StartTime - lineContentEnd prev > maxGap
    · simp only [groupLinesAux, splitByGapAux, if_pos hgap, List.map_cons]
      rw [ih l ⟨l.StartTime, 0, [l]⟩ (by simp)]
      rfl
    · simp only [groupLinesAux, splitByGapAux, if_neg hgap]
      rw [ih l { cur with Lines := cur.Lines ++ [l] } (by simp)]

theorem groupLinesAux_shape (maxGap : Int) :
    ∀ (rest : List LineInfo) (prev : LineInfo) (cur : DivInfo), cur.Lines ≠ [] →
      (∀ fh ∈ cur.Lines.head?, cur.StartTime = fh.StartTime) →
      ∀ d ∈ groupLinesAux maxGap rest prev cur,
        d.Lines ≠ [] ∧ (∀ fh ∈ d.Lines.head?, d.StartTime = fh.StartTime) ∧
        (∀ lt ∈ d.Lines.getLast?, d.EndTime = lineContentEnd lt) := by
  have hclose : ∀ cur : DivInfo, cur.Lines ≠ [] →
      (∀ fh ∈ cur.Lines.head?, cur.StartTime = fh.StartTime) →
      (closeDiv cur).Lines ≠ [] ∧
      (∀ fh ∈ (closeDiv cur).Lines.head?, (closeDiv cur).StartTime = fh.StartTime) ∧
      (∀ lt ∈ (closeDiv cur).Lines.getLast?, (closeDiv cur).EndTime = lineContentEnd lt) := by
    intro cur h hh
    refine ⟨h, hh, ?_⟩
    intro lt hlt
    have hlt2 : lt ∈ cur.Lines.getLast? := hlt
    cases hg : cur.Lines.getLast? with
    | none =>
      rw [hg] at hlt2
      simp at hlt2
    | some x =>
      rw [hg] at hlt2
      simp only [Option.mem_def, Option.some_inj] at hlt2
      show (match cur.Lines.getLast? with
            | some lastLine => lineContentEnd lastLine
            | none => cur.EndTime) = lineContentEnd lt
      rw [hg]
      show lineContentEnd x = lineContentEnd lt
      rw [hlt2]
  intro rest
  induction rest with
  | nil =>
    intro prev cur h hh d hd
    rw [groupLinesAux, if_pos h] at hd
    simp only [List.mem_singleton] at hd
    subst hd
    exact hclose cur h hh
  | cons l rs ih =>
    intro prev cur h hh d hd
    by_cases hgap : l.StartTime - lineContentEnd prev > maxGap
    · rw [groupLinesAux, if_pos hgap] at hd
      rcases List.mem_cons.mp hd with hd | hd
      · subst hd
        exact hclose cur h hh
      · exact ih l ⟨l.StartTime, 0, [l]⟩ (by simp) (by simp) d hd
    · rw [groupLinesAux, if_neg hgap] at hd
      refine ih l { cur with Lines := cur.Lines ++ [l] } (by simp) ?_ d hd
      intro fh hfh
      cases hc : cur.Lines with
      | nil => exact absurd hc h
      | cons c cs =>
        have hfh2 : fh ∈ (cur.Lines ++ [l]).head? := hfh
        rw [hc] at hfh2
        simp only [List.cons_append, List.head?_cons, Option.mem_def,
          Option.some_inj] at hfh2
        subst hfh2
        exact hh c (by rw [hc]; rfl)

/-- Claim C7: the paragraph grouper starts a new paragraph at a line
exactly when that line's start minus the effective content end of the
previous line strictly exceeds the gap threshold (the grouping refines the
spec-side `splitByGap`); each emitted paragraph is non-empty, starts at
its first line's start and ends at its last line's effective content end;
a single-line input yields one paragraph spanning that line; and the
concrete gaps 900 / 1000 / 1001 against threshold 1000 split only at the
1001 gap, yielding 2 paragraphs. -/
theorem groupLinesIntoDivs_boundaries :
    (∀ (lines : List LineInfo) (maxGap : Int),
      (groupLinesIntoDivs lines maxGap).map DivInfo.Lines = splitByGap maxGap lines)
    ∧ (∀ (lines : List LineInfo) (maxGap : Int), ∀ d ∈ groupLinesIntoDivs lines maxGap,
        d.Lines ≠ [] ∧ (∀ fh ∈ d.Lines.head?, d.StartTime = fh.StartTime) ∧
        (∀ lt ∈ d.Lines.getLast?, d.EndTime = lineContentEnd lt))
    ∧ (∀ (l : LineInfo) (maxGap : Int),
        groupLinesIntoDivs [l] maxGap = [⟨l.StartTime, lineContentEnd l, [l]⟩])
    ∧ groupLinesIntoDivs
        [⟨[], 0, 100⟩, ⟨[], 1000, 1100⟩, ⟨[], 2100, 2200⟩, ⟨[], 3201, 3300⟩] 1000
        = [⟨0, 2200, [⟨[], 0, 100⟩, ⟨[], 1000, 1100⟩, ⟨[], 2100, 2200⟩]⟩,
           ⟨3201, 3300, [⟨[], 3201, 3300⟩]⟩] := by
  refine ⟨?_, ?_, ?_, by decide⟩
  · intro lines maxGap
    cases lines with
    | nil => rfl
    | cons l0 rest => exact groupLinesAux_map_lines maxGap rest l0 ⟨l0.StartTime, 0, [l0]⟩ (by simp)
  · intro lines maxGap d hd
    cases lines with
    | nil => simp [groupLinesIntoDivs] at hd
    | cons l0 rest =>
      exact groupLinesAux_shape maxGap rest l0 ⟨l0.StartTime, 0, [l0]⟩
        (by simp) (by simp) d hd
  · intro l maxGap
    simp [groupLinesIntoDivs, groupLinesAux, closeDiv]

/-- Witness for C7: the first paragraph of the concrete 900/1000/1001
example is non-empty, starts at its first line and ends at its last
line's effective content end. -/
theorem groupLinesIntoDivs_boundaries_witness :
    (⟨0, 2200, [⟨[], 0, 100⟩, ⟨[], 1000, 1100⟩, ⟨[], 2100, 2200⟩]⟩ : DivInfo).Lines ≠ [] ∧
    (∀ fh ∈ (⟨0, 2200, [⟨[], 0, 100⟩, ⟨[], 1000, 1100⟩, ⟨[], 2100, 2200⟩]⟩ : DivInfo).Lines.head?,
      (⟨0, 2200, [⟨[], 0, 100⟩, ⟨[], 1000, 1100⟩, ⟨[], 2100, 2200⟩]⟩ : DivInfo).StartTime = fh.StartTime) ∧
    (∀ lt ∈ (⟨0, 2200, [⟨[], 0, 100⟩, ⟨[], 1000, 1100⟩, ⟨[], 2100, 2200⟩]⟩ : DivInfo).Lines.getLast?,
      (⟨0, 2200, [⟨[], 0, 100⟩, ⟨[], 1000, 1100⟩, ⟨[], 2100, 2200⟩]⟩ : DivInfo).EndTime = lineContentEnd lt) :=
  groupLinesIntoDivs_boundaries.2.1
    [⟨[], 0, 100⟩, ⟨[], 1000, 1100⟩, ⟨[], 2100, 2200⟩, ⟨[], 3201, 3300⟩] 1000
    ⟨0, 2200, [⟨[], 0, 100⟩, ⟨[], 1000, 1100⟩, ⟨[], 2100, 2200⟩]⟩ (by decide)

/-! ## Claim C6 -/

theorem foldl_min_le_init (f : MetaLine → Int) :
    ∀ (l : List MetaLine) (init : Int),
      l.foldl (fun m a => min m (f a)) init ≤ init := by
  intro l
  induction l with
  | nil => intro init; simp
  | cons a rs ih =>
    intro init
    calc (a :: rs).foldl (fun m a => min m (f a)) init
        = rs.foldl (fun m a => min m (f a)) (min init (f a)) := rfl
      _ ≤ min init (f a) := ih _
      _ ≤ init := min_le_left _ _

theorem foldl_min_le_mem (f : MetaLine → Int) :
    ∀ (l : List MetaLine) (init : Int) (x : MetaLine), x ∈ l →
      l.foldl (fun m a => min m (f a)) init ≤ f x := by
  intro l
  induction l with
  | nil => intro init x hx; simp at hx
  | cons a rs ih =>
    intro init x hx
    rcases List.mem_cons.mp hx with hx | hx
    · subst hx
      calc (x :: rs).foldl (fun m a => min m (f a)) init
          = rs.foldl (fun m a => min m (f a)) (min init (f x)) := rfl
        _ ≤ min init (f x) := foldl_min_le_init f rs _
        _ ≤ f x := min_le_right _ _
    · exact ih _ x hx

theorem findClosestAux_fst (time : Int) :
    ∀ (rest : List MetaLine) (i : Int) (st : Int × Int),
      (findClosestAux time rest i st).1 =
        rest.foldl (fun m l => min m (goAbs (l.Time - time))) st.1 := by
  intro rest
  induction rest with
  | nil => intro i st; rfl
  | cons l rs ih =>
    intro i st
    by_cases hd : goAbs (l.Time - time) < st.1
    · simp only [findClosestAux, if_pos hd, List.foldl_cons]
      rw [ih, min_eq_right hd.le]
    · simp only [findClosestAux, if_neg hd, List.foldl_cons]
      rw [ih, min_eq_left (not_lt.mp hd)]

theorem findClosestAux_no_improve (time : Int) :
    ∀ (rest : List MetaLine) (i : Int) (st : Int × Int),
      (∀ l ∈ rest, st.1 ≤ goAbs (l.Time - time)) →
      findClosestAux time rest i st = st := by
  intro rest
  induction rest with
  | nil => intro i st _; rfl
  | cons l rs ih =>
    intro i st h
    have hd : ¬(goAbs (l.Time - time) < st.1) := not_lt.mpr (h l (by simp))
    simp only [findClosestAux, if_neg hd]
    exact ih (i + 1) st fun q hq => h q (by simp [hq])

theorem findClosestAux_improve (time : Int) :
    ∀ (rest : List MetaLine) (i : Int) (st : Int × Int),
      (∃ l ∈ rest, goAbs (l.Time - time) < st.1) →
      ∃ k : Fin rest.length,
        findClosestAux time rest i st =
          (goAbs ((rest.get k).Time - time), i + (k : Nat)) ∧
        goAbs ((rest.get k).Time - time) < st.1 := by
  intro rest
  induction rest with
  | nil => intro i st h; simp at h
  | cons l rs ih =>
    intro i st h
    by_cases hd : goAbs (l.Time - time) < st.1
    · by_cases himp : ∃ l2 ∈ rs, goAbs (l2.Time - time) < goAbs (l.Time - time)
      · obtain ⟨k, hk, hklt⟩ := ih (i + 1) (goAbs (l.Time - time), i) himp
        refine ⟨k.succ, ?_, lt_trans hklt hd⟩
        simp only [findClosestAux, if_pos hd]
        rw [hk]
        refine Prod.ext rfl ?_
        show (i + 1 + (k : Nat) : Int) = i + ((k.succ : Fin (l :: rs).length) : Nat)
        simp [Fin.val_succ]
        ring
      · push_neg at himp
        have := findClosestAux_no_improve time rs (i + 1) (goAbs (l.Time - time), i)
          (fun q hq => himp q hq)
        refine ⟨⟨0, by simp⟩, ?_, hd⟩
        simp only [findClosestAux, if_pos hd]
        rw [this]
        simp
    · obtain ⟨w, hw, hwlt⟩ := h
      rcases List.mem_cons.mp hw with hw | hw
      · exact absurd (hw ▸ hwlt) hd
      · obtain ⟨k, hk, hklt⟩ := ih (i + 1) st ⟨w, hw, hwlt⟩
        refine ⟨k.succ, ?_, hklt⟩
        simp only [findClosestAux, if_neg hd]
        rw [hk]
        refine Prod.ext rfl ?_
        show (i + 1 + (k : Nat) : Int) = i + ((k.succ : Fin (l :: rs).length) : Nat)
        simp [Fin.val_succ]
        ring

theorem findClosest_char (time : Int) (lines : List MetaLine) :
    ((∀ l ∈ lines, 500 ≤ goAbs (l.Time - time)) → findClosestLine time lines = [])
    ∧ ((∃ l ∈ lines, goAbs (l.Time - time) < 500) →
        ∃ k : Fin lines.length,
          findClosestLine time lines = (lines.get k).Content ∧
          goAbs ((lines.get k).Time - time) < 500 ∧
          ∀ j : Fin lines.length,
            goAbs ((lines.get k).Time - time) ≤ goAbs ((lines.get j).Time - time)) := by
  constructor
  · intro h
    unfold findClosestLine
    rw [findClosestAux_no_improve time lines 0 (500, -1) h]
    simp
  · intro h
    obtain ⟨k, hk, hklt⟩ := findClosestAux_improve time lines 0 (500, -1) h
    refine ⟨k, ?_, hklt, ?_⟩
    · unfold findClosestLine
      rw [hk]
      have hne : (0 + (k : Nat) : Int) ≠ -1 := by omega
      rw [if_pos hne]
      have : ((0 + (k : Nat) : Int)).toNat = (k : Nat) := by omega
      rw [this, List.get?_eq_get k.isLt]
      rfl
    · intro j
      have h1 := findClosestAux_fst time lines 0 (500, -1)
      rw [hk] at h1
      have h2 : goAbs ((lines.get k).Time - time) =
          lines.foldl (fun m l => min m (goAbs (l.Time - time))) 500 := by
        simpa using h1
      rw [h2]
      exact foldl_min_le_mem (fun l => goAbs (l.Time - time)) lines 500
        (lines.get j) (lines.get_mem j.1 j.isLt)

theorem findClosest_singleton (t : Int) (m : MetaLine) :
    findClosestLine t [m] = if goAbs (m.Time - t) < 500 then m.Content else [] := by
  by_cases h : goAbs (m.Time - t) < 500 <;>
    simp [findClosestLine, findClosestAux, h]

/-- Claim C6: `findClosestLine` returns the content of an entry minimizing
the absolute time difference, and only when that minimum is strictly below
500 ms; when no entry is within the threshold it returns the empty string
and no error.  In particular a translation at time `T` matches a query at
`T + 499` and `T - 499` but not at `T + 500` or `T + 501`. -/
theorem findClosestLine_spec :
    (∀ (time : Int) (lines : List MetaLine),
      (∃ l ∈ lines, goAbs (l.Time - time) < 500) →
      ∃ k : Fin lines.length,
        findClosestLine time lines = (lines.get k).Content ∧
        goAbs ((lines.get k).Time - time) < 500 ∧
        ∀ j : Fin lines.length,
          goAbs ((lines.get k).Time - time) ≤ goAbs ((lines.get j).Time - time))
    ∧ (∀ (time : Int) (lines : List MetaLine),
        (∀ l ∈ lines, 500 ≤ goAbs (l.Time - time)) → findClosestLine time lines = [])
    ∧ (∀ (T : Int) (c : GoStr), findClosestLine (T + 499) [⟨T, c⟩] = c)
    ∧ (∀ (T : Int) (c : GoStr), findClosestLine (T - 499) [⟨T, c⟩] = c)
    ∧ (∀ (T : Int) (c : GoStr), findClosestLine (T + 500) [⟨T, c⟩] = [])
    ∧ (∀ (T : Int) (c : GoStr), findClosestLine (T + 501) [⟨T, c⟩] = []) := by
  refine ⟨fun time lines => (findClosest_char time lines).2,
    fun time lines => (findClosest_char time lines).1, ?_, ?_, ?_, ?_⟩
  · intro T c
    rw [findClosest_singleton]
    have h1 : (⟨T, c⟩ : MetaLine).Time - (T + 499) = -499 := by simp
    rw [h1]
    norm_num [goAbs]
  · intro T c
    rw [findClosest_singleton]
    have h1 : (⟨T, c⟩ : MetaLine).Time - (T - 499) = 499 := by simp
    rw [h1]
    norm_num [goAbs]
  · intro T c
    rw [findClosest_singleton]
    have h1 : (⟨T, c⟩ : MetaLine).Time - (T + 500) = -500 := by simp
    rw [h1]
    norm_num [goAbs]
  · intro T c
    rw [findClosest_singleton]
    have h1 : (⟨T, c⟩ : MetaLine).Time - (T + 501) = -501 := by simp
    rw [h1]
    norm_num [goAbs]

/-- Witness for C6: a translation at time 1000 queried at 1499
(difference 499 < 500) is matched and minimal. -/
theorem findClosestLine_spec_witness :
    ∃ k : Fin 1,
      findClosestLine 1499 [⟨1000, gs "x"⟩] =
        ([(⟨1000, gs "x"⟩ : MetaLine)].get k).Content ∧
      goAbs (([(⟨1000, gs "x"⟩ : MetaLine)].get k).Time - 1499) < 500 ∧
      ∀ j : Fin 1,
        goAbs (([(⟨1000, gs "x"⟩ : MetaLine)].get k).Time - 1499) ≤
          goAbs (([(⟨1000, gs "x"⟩ : MetaLine)].get j).Time - 1499) :=
  findClosestLine_spec.1 1499 [⟨1000, gs "x"⟩]
    ⟨(⟨1000, gs "x"⟩ : MetaLine), by simp, by decide⟩

/-! ## Claim C1 -/

theorem natDigitsAux_small (fuel n : Nat) (acc : GoStr) (h : n < 10) :
    natDigitsAux (fuel + 1) n acc = Nat.digitChar n :: acc := by
  simp [natDigitsAux, h]

theorem natDigits_two (n : Nat) (h10 : 10 ≤ n) (h100 : n < 100) :
    natDigits n = [Nat.digitChar (n / 10), Nat.digitChar (n % 10)] := by
  have h1 : ¬ n < 10 := by omega
  obtain ⟨m, rfl⟩ : ∃ m, n = m + 1 := ⟨n - 1, by omega⟩
  unfold natDigits
  rw [natDigitsAux, if_neg h1]
  exact natDigitsAux_small m ((m + 1) / 10) _ (by omega)

theorem goPad2_ofNat (n : Nat) (h : n < 100) :
    goFmt0 2 (n : Int) = [Nat.digitChar (n / 10), Nat.digitChar (n % 10)] := by
  have hnn : ¬((n : Int) < 0) := by omega
  unfold goFmt0
  rw [if_neg hnn]
  have ht : ((n : Int)).toNat = n := rfl
  rw [ht]
  by_cases h10 : n < 10
  · have hd : natDigits n = [Nat.digitChar n] := natDigitsAux_small n n [] h10
    rw [hd]
    rw [show n / 10 = 0 by omega, show n % 10 = n by omega]
    rfl
  · rw [natDigits_two n (by omega) h]
    simp [padZeros]

theorem digitChar_isDigit (d : Nat) (h : d < 10) :
    (Nat.digitChar d).isDigit = true := by
  interval_cases d <;> rfl

theorem digitVal_digitChar (d : Nat) (h : d < 10) :
    digitVal (Nat.digitChar d) = d := by
  interval_cases d <;> rfl

theorem digitsToNat_two (x y : Nat) (hx : x < 10) (hy : y < 10) :
    digitsToNat [Nat.digitChar x, Nat.digitChar y] = 10 * x + y := by
  show (0 * 10 + digitVal (Nat.digitChar x)) * 10 + digitVal (Nat.digitChar y) = 10 * x + y
  rw [digitVal_digitChar x hx, digitVal_digitChar y hy]
  ring

theorem lrcTimeSubmatch_digits (a b c d e f : Nat)
    (ha : a < 10) (hb : b < 10) (hc : c < 10) (hd : d < 10)
    (he : e < 10) (hf : f < 10) :
    lrcTimeSubmatch ('[' :: [Nat.digitChar a, Nat.digitChar b] ++
        ':' :: [Nat.digitChar c, Nat.digitChar d] ++
        '.' :: [Nat.digitChar e, Nat.digitChar f] ++ [']']) =
      some ([Nat.digitChar a, Nat.digitChar b],
            [Nat.digitChar c, Nat.digitChar d],
            [Nat.digitChar e, Nat.digitChar f], []) := by
  simp only [List.cons_append, List.nil_append]
  unfold lrcTimeSubmatch
  simp [digitChar_isDigit a ha, digitChar_isDigit b hb, digitChar_isDigit c hc,
    digitChar_isDigit d hd, digitChar_isDigit e he, digitChar_isDigit f hf]

theorem decodeLrcGroups_digits (a b c d e f : Nat)
    (ha : a < 10) (hb : b < 10) (hc : c < 10) (hd : d < 10)
    (he : e < 10) (hf : f < 10) :
    decodeLrcGroups [Nat.digitChar a, Nat.digitChar b]
        [Nat.digitChar c, Nat.digitChar d] [Nat.digitChar e, Nat.digitChar f] =
      (((10 * a + b) * 60000 + (10 * c + d) * 1000 + (10 * e + f) * 10 : Nat) : Int) := by
  unfold decodeLrcGroups
  rw [digitsToNat_two a b ha hb, digitsToNat_two c d hc hd, digitsToNat_two e f he hf]
  simp only [List.length_cons, List.length_nil, if_pos rfl]
  push_cast
  ring

theorem msToLrcTime_ofNat (n : Nat) :
    msToLrcTime (n : Int) =
      '[' :: goFmt0 2 ((n / 1000 / 60 : Nat) : Int) ++
      ':' :: goFmt0 2 ((n / 1000 % 60 : Nat) : Int) ++
      '.' :: goFmt0 2 ((n % 1000 / 10 : Nat) : Int) ++ [']'] := rfl

theorem lrcDecodeMs_msToLrcTime (n : Nat) (h : n < 6000000) :
    lrcDecodeMs (msToLrcTime (n : Int)) = some ((10 * (n / 10) : Nat) : Int) := by
  rw [msToLrcTime_ofNat]
  have hm : n / 1000 / 60 < 100 := by omega
  have hs : n / 1000 % 60 < 100 := by omega
  have hc : n % 1000 / 10 < 100 := by omega
  rw [goPad2_ofNat _ hm, goPad2_ofNat _ hs, goPad2_ofNat _ hc]
  unfold lrcDecodeMs
  rw [lrcTimeSubmatch_digits _ _ _ _ _ _ (by omega) (by omega) (by omega)
    (by omega) (by omega) (by omega)]
  simp only [Option.map_some']
  rw [decodeLrcGroups_digits _ _ _ _ _ _ (by omega) (by omega) (by omega)
    (by omega) (by omega) (by omega)]
  have heq : (10 * (n / 1000 / 60 / 10) + n / 1000 / 60 % 10) * 60000 +
      (10 * (n / 1000 % 60 / 10) + n / 1000 % 60 % 10) * 1000 +
      (10 * (n % 1000 / 10 / 10) + n % 1000 / 10 % 10) * 10 = 10 * (n / 10) := by
    omega
  rw [heq]

/-- Counterexample to claim C1 as stated: the valid 3-digit input
`[00:00.005]` decodes to 5 ms, re-encodes (at 2-digit centisecond
precision) to `[00:00.00]`, which decodes to 0 ≠ 5 — so
decode∘encode∘decode is NOT the identity on the decode image of 3-digit
inputs. -/
theorem lrc_decode_encode_decode_cx :
    lrcDecodeMs (gs "[00:00.005]") = some 5 ∧
    msToLrcTime 5 = gs "[00:00.00]" ∧
    lrcDecodeMs (msToLrcTime 5) = some 0 ∧
    (0 : Int) ≠ 5 := by
  refine ⟨by decide, by decide, by decide, by decide⟩

/-- Claim C1 (amended): for every millisecond value obtained by decoding a
valid LRC timestamp, provided the value is below 6000000 ms (so the
re-encoded minute field still has two digits and can be re-parsed),
decoding the re-encoding yields the value truncated to centisecond
precision, i.e. `10 * (ms / 10)`; for 2-digit (centisecond) inputs this is
exactly the original value, so decode∘encode∘decode = decode there.
3-digit inputs lose their final milliseconds digit (see the
counterexample), and values at or above 6000000 ms re-encode with a
3-digit minute field that no longer matches `lrcTimeRe`. -/
theorem lrc_decode_encode_decode :
    ∀ (l g1 g2 g3 rest : GoStr),
      lrcTimeSubmatch l = some (g1, g2, g3, rest) →
      decodeLrcGroups g1 g2 g3 < 6000000 →
      (lrcDecodeMs (msToLrcTime (decodeLrcGroups g1 g2 g3)) =
        some (10 * ((decodeLrcGroups g1 g2 g3).tdiv 10)))
      ∧ (g3.length = 2 →
          lrcDecodeMs (msToLrcTime (decodeLrcGroups g1 g2 g3)) =
            some (decodeLrcGroups g1 g2 g3)) := by
  intro l g1 g2 g3 rest _hsub hlt
  have hofnat : decodeLrcGroups g1 g2 g3 =
      ((digitsToNat g1 * 60000 + digitsToNat g2 * 1000 +
        (if g3.length = 2 then digitsToNat g3 * 10 else digitsToNat g3) : Nat) : Int) := by
    unfold decodeLrcGroups
    by_cases hlen : g3.length = 2 <;> simp only [hlen, if_true, if_false, reduceIte] <;>
      push_cast <;> ring
  have hN : digitsToNat g1 * 60000 + digitsToNat g2 * 1000 +
      (if g3.length = 2 then digitsToNat g3 * 10 else digitsToNat g3) < 6000000 := by
    rw [hofnat] at hlt
    exact_mod_cast hlt
  constructor
  · rw [hofnat, lrcDecodeMs_msToLrcTime _ hN]
    have htd : (((digitsToNat g1 * 60000 + digitsToNat g2 * 1000 +
        (if g3.length = 2 then digitsToNat g3 * 10 else digitsToNat g3) : Nat) : Int)).tdiv 10 =
        (((digitsToNat g1 * 60000 + digitsToNat g2 * 1000 +
        (if g3.length = 2 then digitsToNat g3 * 10 else digitsToNat g3)) / 10 : Nat) : Int) := rfl
    rw [htd]
    push_cast
    rfl
  · intro hlen
    rw [hofnat, lrcDecodeMs_msToLrcTime _ hN]
    congr 1
    rw [hlen] at hN ⊢
    simp only [if_true, reduceIte] at hN ⊢
    congr 1
    omega

/-- Witness for C1 (amended): round-tripping the 2-digit input
`[01:02.03]` (62030 ms) through encode and decode returns 62030 ms. -/
theorem lrc_decode_encode_decode_witness :
    lrcDecodeMs (msToLrcTime (decodeLrcGroups (gs "01") (gs "02") (gs "03"))) =
      some (decodeLrcGroups (gs "01") (gs "02") (gs "03")) :=
  (lrc_decode_encode_decode (gs "[01:02.03]") (gs "01") (gs "02") (gs "03") []
    (by decide) (by decide)).2 (by decide)

/-! ## Claim C4 -/

theorem trimSpace_eq_nil (s : GoStr) :
    trimSpace s = [] ↔ ∀ c ∈ s, isGoSpace c := by
  unfold trimSpace
  rw [List.reverse_eq_nil_iff, List.dropWhile_eq_nil_iff]
  constructor
  · intro h c hc
    by_cases hmem : c ∈ s.dropWhile isGoSpace
    · exact h c (List.mem_reverse.mpr hmem)
    · have hsplit : c ∈ s.takeWhile isGoSpace ++ s.dropWhile isGoSpace := by
        rw [List.takeWhile_append_dropWhile]
        exact hc
      rcases List.mem_append.mp hsplit with h2 | h2
      · exact List.mem_takeWhile_imp h2
      · exact absurd h2 hmem
  · intro h x hx
    exact h x ((List.dropWhile_sublist isGoSpace).subset (List.mem_reverse.mp hx))

theorem mem_splitNL_mem (s : GoStr) :
    ∀ l ∈ splitNL s, ∀ c ∈ l, c ∈ s := by
  induction s with
  | nil =>
    intro l hl c hc
    simp only [splitNL, List.mem_singleton] at hl
    subst hl
    simp at hc
  | cons a rest ih =>
    intro l hl c hc
    by_cases ha : a = '\n'
    · rw [splitNL, if_pos ha] at hl
      rcases List.mem_cons.mp hl with h | h
      · subst h
        simp at hc
      · exact List.mem_cons_of_mem a (ih l h c hc)
    · rw [splitNL, if_neg ha] at hl
      cases hs : splitNL rest with
      | nil =>
        rw [hs] at hl
        simp only [List.mem_singleton] at hl
        subst hl
        simp only [List.mem_singleton] at hc
        subst hc
        simp
      | cons p ps =>
        rw [hs] at hl
        rcases List.mem_cons.mp hl with h | h
        · subst h
          rcases List.mem_cons.mp hc with h2 | h2
          · subst h2
            simp
          · exact List.mem_cons_of_mem a (ih p (by rw [hs]; simp) c h2)
        · exact List.mem_cons_of_mem a (ih l (by rw [hs]; simp [h]) c hc)

theorem collectTimedLines_blank (content : GoStr) (h : trimSpace content = []) :
    collectTimedLines content = [] := by
  unfold collectTimedLines
  rw [List.filterMap_eq_nil_iff]
  intro l hl
  have hall : ∀ c ∈ l, isGoSpace c := fun c hc =>
    (trimSpace_eq_nil content).mp h c (mem_splitNL_mem content l hl c hc)
  have ht : trimSpace l = [] := (trimSpace_eq_nil l).mpr hall
  simp [ht]

theorem goSortByTime_contract (l : List MetaLine) :
    (goSortByTime l).Perm l ∧
    (goSortByTime l).Pairwise (fun a b => a.Time ≤ b.Time) :=
  ⟨List.perm_insertionSort _ l, List.sorted_insertionSort _ l⟩

/-- Counterexample to the stability part of claim C4: `sort.Slice` only
promises a permutation that is non-decreasing under the comparator (its
documentation explicitly says the sort is not stable), and
`badSortByTime` meets that contract on this input while reversing the two
equal-time entries of `[00:01.00]a\n[00:01.00]b` — so the claimed
input-order for equal times does not follow from the code. -/
theorem parseLrcTimedLines_stability_cx :
    collectTimedLines (gs "[00:01.00]a\n[00:01.00]b") =
      [⟨1000, gs "a"⟩, ⟨1000, gs "b"⟩] ∧
    (badSortByTime (collectTimedLines (gs "[00:01.00]a\n[00:01.00]b"))).Perm
      (collectTimedLines (gs "[00:01.00]a\n[00:01.00]b")) ∧
    (badSortByTime (collectTimedLines (gs "[00:01.00]a\n[00:01.00]b"))).Pairwise
      (fun a b => a.Time ≤ b.Time) ∧
    parseLrcTimedLinesWith badSortByTime (gs "[00:01.00]a\n[00:01.00]b") =
      [⟨1000, gs "b"⟩, ⟨1000, gs "a"⟩] ∧
    parseLrcTimedLinesWith badSortByTime (gs "[00:01.00]a\n[00:01.00]b") ≠
      [⟨1000, gs "a"⟩, ⟨1000, gs "b"⟩] := by
  refine ⟨by decide, by decide, ?_, by decide, by decide⟩
  rw [show badSortByTime (collectTimedLines (gs "[00:01.00]a\n[00:01.00]b")) =
    [⟨1000, gs "b"⟩, ⟨1000, gs "a"⟩] by decide]
  exact List.pairwise_pair.mpr (by decide)

/-- Claim C4 (amended): for every routine satisfying the `sort.Slice`
contract (permutation, non-decreasing by time) — hence for the actual Go
sort — the LRC timeline parser returns a sequence sorted ascending by time
whose entries are, as a multiset, exactly the retained lines of the input
(retained iff the trimmed line matches the timestamp pattern and its
trimmed text is non-empty, is not `//`, and contains neither watermark
substring — this is `collectTimedLines`), and blank input yields the empty
sequence.  The relative order of equal-time entries is NOT guaranteed
(`sort.Slice` is unstable; see the counterexample). -/
theorem parseLrcTimedLines_sorted :
    ∀ (sortFn : List MetaLine → List MetaLine),
      (∀ l, (sortFn l).Perm l ∧ (sortFn l).Pairwise (fun a b => a.Time ≤ b.Time)) →
      ∀ (content : GoStr),
        (parseLrcTimedLinesWith sortFn content).Pairwise (fun a b => a.Time ≤ b.Time) ∧
        (parseLrcTimedLinesWith sortFn content).Perm (collectTimedLines content) ∧
        (trimSpace content = [] → parseLrcTimedLinesWith sortFn content = []) := by
  intro sortFn hc content
  by_cases hb : trimSpace content = []
  · refine ⟨?_, ?_, fun _ => ?_⟩ <;>
      simp [parseLrcTimedLinesWith, hb, collectTimedLines_blank content hb]
  · unfold parseLrcTimedLinesWith
    rw [if_neg hb]
    exact ⟨(hc _).2, (hc _).1, fun h => absurd h hb⟩

/-- Witness for C4 (amended): the two out-of-order timed lines of
`[00:02.00]b\n[00:01.00]a` are returned sorted and as the same multiset. -/
theorem parseLrcTimedLines_sorted_witness :
    (parseLrcTimedLinesWith goSortByTime (gs "[00:02.00]b\n[00:01.00]a")).Pairwise
      (fun a b => a.Time ≤ b.Time) ∧
    (parseLrcTimedLinesWith goSortByTime (gs "[00:02.00]b\n[00:01.00]a")).Perm
      (collectTimedLines (gs "[00:02.00]b\n[00:01.00]a")) ∧
    (trimSpace (gs "[00:02.00]b\n[00:01.00]a") = [] →
      parseLrcTimedLinesWith goSortByTime (gs "[00:02.00]b\n[00:01.00]a") = []) :=
  parseLrcTimedLines_sorted goSortByTime goSortByTime_contract
    (gs "[00:02.00]b\n[00:01.00]a")

/-! ## Claim C2 -/

theorem trimSpace_subset (l : GoStr) : ∀ c ∈ trimSpace l, c ∈ l := by
  intro c hc
  unfold trimSpace at hc
  rw [List.mem_reverse] at hc
  have h1 := (List.dropWhile_sublist isGoSpace).subset hc
  rw [List.mem_reverse] at h1
  exact (List.dropWhile_sublist isGoSpace).subset h1

theorem splitNL_no_newline (s : GoStr) : ∀ l ∈ splitNL s, '\n' ∉ l := by
  induction s with
  | nil =>
    intro l hl
    simp only [splitNL, List.mem_singleton] at hl
    subst hl
    simp
  | cons a rest ih =>
    intro l hl
    by_cases ha : a = '\n'
    · rw [splitNL, if_pos ha] at hl
      rcases List.mem_cons.mp hl with h | h
      · subst h
        simp
      · exact ih l h
    · rw [splitNL, if_neg ha] at hl
      cases hs : splitNL rest with
      | nil =>
        rw [hs] at hl
        simp only [List.mem_singleton] at hl
        subst hl
        intro hc
        exact ha (List.mem_singleton.mp hc).symm
      | cons p ps =>
        rw [hs] at hl
        rcases List.mem_cons.mp hl with h | h
        · subst h
          intro hc
          rcases List.mem_cons.mp hc with h2 | h2
          · exact ha h2.symm
          · exact ih p (by rw [hs]; simp) h2
        · exact ih l (by rw [hs]; simp [h])

theorem splitNL_append_cons (a : GoStr) (h : '\n' ∉ a) (b : GoStr) :
    splitNL (a ++ '\n' :: b) = a :: splitNL b := by
  induction a with
  | nil => simp [splitNL]
  | cons c cs ih =>
    have hc : ¬(c = '\n') := fun hh => h (by simp [hh])
    have hcs : '\n' ∉ cs := fun hh => h (by simp [hh])
    rw [List.cons_append, splitNL, if_neg hc, ih hcs]

theorem natDigitsAux_digits :
    ∀ (fuel n : Nat) (acc : GoStr), (∀ c ∈ acc, c.isDigit = true) →
      ∀ c ∈ natDigitsAux fuel n acc, c.isDigit = true := by
  intro fuel
  induction fuel with
  | zero =>
    intro n acc hacc c hc
    exact hacc c hc
  | succ f ih =>
    intro n acc hacc c hc
    rw [natDigitsAux] at hc
    split at hc
    · rename_i hn
      rcases List.mem_cons.mp hc with h | h
      · subst h
        exact digitChar_isDigit n hn
      · exact hacc c h
    · refine ih (n / 10) _ (fun d hd => ?_) c hc
      rcases List.mem_cons.mp hd with h | h
      · subst h
        exact digitChar_isDigit (n % 10) (by omega)
      · exact hacc d h

theorem goFmt0_no_newline (w : Nat) (n : Int) : '\n' ∉ goFmt0 w n := by
  unfold goFmt0
  split
  · intro hc
    rcases List.mem_cons.mp hc with h | h
    · exact absurd h (by decide)
    · unfold padZeros at h
      rcases List.mem_append.mp h with h2 | h2
      · exact absurd (List.eq_of_mem_replicate h2) (by decide)
      · have hd := natDigitsAux_digits (n.natAbs + 1) n.natAbs []
          (by simp) '\n' h2
        exact absurd hd (by decide)
  · intro hc
    unfold padZeros at hc
    rcases List.mem_append.mp hc with h2 | h2
    · exact absurd (List.eq_of_mem_replicate h2) (by decide)
    · have hd := natDigitsAux_digits (n.toNat + 1) n.toNat []
        (by simp) '\n' h2
      exact absurd hd (by decide)

theorem msToLrcTime_no_newline (ms : Int) : '\n' ∉ msToLrcTime ms := by
  have hnotapp : ∀ (l1 l2 : GoStr), '\n' ∉ l1 → '\n' ∉ l2 → '\n' ∉ l1 ++ l2 :=
    fun l1 l2 h1 h2 hc => (List.mem_append.mp hc).elim h1 h2
  have hnotcons : ∀ (c : Char) (l : GoStr), ¬('\n' = c) → '\n' ∉ l → '\n' ∉ c :: l :=
    fun c l h1 h2 hc => (List.mem_cons.mp hc).elim h1 h2
  unfold msToLrcTime
  repeat'
    first
      | exact goFmt0_no_newline _ _
      | apply hnotapp
      | apply hnotcons
      | decide

theorem lrcTimeSubmatch_no_newline (l g1 g2 g3 g4 : GoStr)
    (h : lrcTimeSubmatch l = some (g1, g2, g3, g4)) : '\n' ∉ g4 := by
  unfold lrcTimeSubmatch at h
  split at h
  · split at h
    · split at h
      · split at h
        · simp at h
        · rename_i hmem
          simp only [Option.some.injEq, Prod.mk.injEq] at h
          obtain ⟨-, -, -, h4⟩ := h
          subst h4
          exact hmem
      · split at h
        · rename_i hcond
          simp only [Option.some.injEq, Prod.mk.injEq] at h
          obtain ⟨-, -, -, h4⟩ := h
          subst h4
          exact hcond.2
        · simp at h
      · simp at h
    · simp at h
  · simp at h

theorem collectTimedLines_content (content : GoStr) :
    ∀ m ∈ collectTimedLines content, '\n' ∉ m.Content := by
  intro m hm
  unfold collectTimedLines at hm
  rcases List.mem_filterMap.mp hm with ⟨l, -, hf⟩
  dsimp only at hf
  split at hf
  · simp at hf
  · split at hf
    · rename_i g heq
      obtain ⟨a, b, c, d⟩ := g
      split at hf
      · simp only [Option.some.injEq] at hf
        subst hf
        intro hcc
        exact lrcTimeSubmatch_no_newline _ _ _ _ _ heq (trimSpace_subset _ _ hcc)
      · simp at hf
    · simp at hf

theorem findClosest_mem (t : Int) (lines : List MetaLine) :
    findClosestLine t lines = [] ∨
    ∃ m ∈ lines, findClosestLine t lines = m.Content := by
  unfold findClosestLine
  dsimp only
  split
  · cases hg : lines.get? (findClosestAux t lines 0 (500, -1)).2.toNat with
    | none =>
      left
      simp [hg]
    | some m =>
      right
      exact ⟨m, List.get?_mem hg, by simp [hg]⟩
  · left
    rfl

theorem mergeFollower_cases (translations : List MetaLine) (line : GoStr) :
    (mergeFollower translations line = [] ∧
      mergeEmittedLines translations line = [line])
    ∨ ∃ t : Int,
        mergeFollower translations line =
          msToLrcTime t ++ findClosestLine t translations ++ ['\n'] ∧
        findClosestLine t translations ≠ [] ∧
        mergeEmittedLines translations line =
          [line, msToLrcTime t ++ findClosestLine t translations] := by
  by_cases hmeta : isMetadataLine line = true
  · left
    constructor <;> simp [mergeFollower, mergeEmittedLines, hmeta]
  · cases hsub : lrcTimeSubmatch line with
    | none =>
      left
      constructor <;> simp [mergeFollower, mergeEmittedLines, hmeta, hsub]
    | some g =>
      by_cases htr :
          findClosestLine (decodeLrcGroups g.1 g.2.1 g.2.2.1) translations = []
      · left
        constructor <;> simp [mergeFollower, mergeEmittedLines, hmeta, hsub, htr]
      · right
        refine ⟨decodeLrcGroups g.1 g.2.1 g.2.2.1, ?_, htr, ?_⟩ <;>
          simp [mergeFollower, mergeEmittedLines, hmeta, hsub, htr]

theorem mergeBody_splitNL (translations : List MetaLine)
    (hTr : ∀ m ∈ translations, '\n' ∉ m.Content) :
    ∀ (ls : List GoStr), (∀ l ∈ ls, '\n' ∉ l) →
      splitNL (mergeBody translations ls) =
        ((ls.map trimSpace).filter (fun l => l ≠ [])).flatMap
          (mergeEmittedLines translations) ++ [[]] := by
  intro ls
  induction ls with
  | nil => intro _; rfl
  | cons l rest ih =>
    intro h
    have hl : '\n' ∉ l := h l (by simp)
    have hrest : ∀ q ∈ rest, '\n' ∉ q := fun q hq => h q (by simp [hq])
    have htriml : '\n' ∉ trimSpace l := fun hcc => hl (trimSpace_subset l _ hcc)
    by_cases hb : trimSpace l = []
    · rw [mergeBody]
      simp only [hb, if_pos rfl, reduceIte]
      rw [ih hrest]
      simp [hb]
    · rw [mergeBody]
      simp only [if_neg hb]
      rcases mergeFollower_cases translations (trimSpace l) with
        ⟨hf, he⟩ | ⟨t, hf, htr, he⟩
      · rw [hf, List.nil_append, splitNL_append_cons _ htriml, ih hrest]
        simp [hb, he]
      · have hAB : '\n' ∉ msToLrcTime t ++ findClosestLine t translations := by
          intro hcc
          rcases List.mem_append.mp hcc with h2 | h2
          · exact msToLrcTime_no_newline t h2
          · rcases findClosest_mem t translations with hn | ⟨m, hmem, hcn⟩
            · rw [hn] at h2
              simp at h2
            · rw [hcn] at h2
              exact hTr m hmem h2
        rw [hf]
        rw [show (msToLrcTime t ++ findClosestLine t translations ++ ['\n']) ++
            mergeBody translations rest =
            (msToLrcTime t ++ findClosestLine t translations) ++
              '\n' :: mergeBody translations rest by simp]
        rw [splitNL_append_cons _ htriml, splitNL_append_cons _ hAB, ih hrest]
        simp [hb, he]

/-- Counterexample to claim C2 as stated: with original LRC
` [00:00.005]hello` (leading space) and translation `[00:00.00]x`, the
merged output is `[00:00.005]hello\n[00:00.00]x\n`: the original line is
NOT contained verbatim (it was trimmed), and the inserted translation line
carries the re-encoded centisecond label `[00:00.00]`, not the original
line's label `[00:00.005]`. -/
theorem mergeLrcWithTranslation_cx :
    mergeLrcWithTranslation goSortByTime (gs " [00:00.005]hello")
        (gs "[00:00.00]x") = gs "[00:00.005]hello\n[00:00.00]x\n" ∧
    containsSub (gs " [00:00.005]hello")
        (mergeLrcWithTranslation goSortByTime (gs " [00:00.005]hello")
          (gs "[00:00.00]x")) = false ∧
    splitNL (mergeLrcWithTranslation goSortByTime (gs " [00:00.005]hello")
        (gs "[00:00.00]x")) =
      [gs "[00:00.005]hello", gs "[00:00.00]x", []] ∧
    gs "[00:00.00]x" ≠ gs "[00:00.005]" ++ gs "x" := by
  refine ⟨by decide, by decide, by decide, by decide⟩

/-- Claim C2 (amended): for every sort routine satisfying the permutation
half of the `sort.Slice` contract and every translation text that is not
blank, the merged-LRC output consists, line by line, of each TRIMMED,
non-blank line of the original in original order (blank lines are dropped
and surrounding whitespace removed — not byte-verbatim), where each
non-metadata line matching the timestamp pattern whose decoded time has a
translation within the 500 ms threshold is immediately followed by a line
made of the RE-ENCODED centisecond timestamp of the decoded time (which
can differ textually from the original label) and the translated text;
metadata lines and non-matching lines pass through (trimmed) with no
translation line.  (When the translation text is blank the function
returns the original text byte-for-byte.) -/
theorem mergeLrcWithTranslation_lines :
    ∀ (sortFn : List MetaLine → List MetaLine),
      (∀ l, (sortFn l).Perm l) →
      ∀ (originalLrc transLrc : GoStr), trimSpace transLrc ≠ [] →
        splitNL (mergeLrcWithTranslation sortFn originalLrc transLrc) =
          (((splitNL originalLrc).map trimSpace).filter (fun l => l ≠ [])).flatMap
            (mergeEmittedLines (parseLrcTimedLinesWith sortFn transLrc)) ++ [[]] := by
  intro sortFn hs originalLrc transLrc ht
  unfold mergeLrcWithTranslation
  rw [if_neg ht]
  refine mergeBody_splitNL _ ?_ _ (splitNL_no_newline originalLrc)
  intro m hm
  unfold parseLrcTimedLinesWith at hm
  rw [if_neg ht] at hm
  exact collectTimedLines_content transLrc m ((hs _).subset hm)

/-- Witness for C2 (amended): a metadata line, a matched lyric line with a
translation 200 ms away, and an unparseable line, merged with a concrete
translation timeline. -/
theorem mergeLrcWithTranslation_lines_witness :
    splitNL (mergeLrcWithTranslation goSortByTime
        (gs "[ti:t]\n[00:01.00]hello\nnotime") (gs "[00:01.20]hi")) =
      ((((splitNL (gs "[ti:t]\n[00:01.00]hello\nnotime")).map trimSpace).filter
          (fun l => l ≠ [])).flatMap
        (mergeEmittedLines (parseLrcTimedLinesWith goSortByTime
          (gs "[00:01.20]hi")))) ++ [[]] :=
  mergeLrcWithTranslation_lines goSortByTime
    (fun l => (goSortByTime_contract l).1)
    (gs "[ti:t]\n[00:01.00]hello\nnotime") (gs "[00:01.20]hi") (by decide)

/-! ## Claim C9 -/

/-- Claim C9: the response builder leaves `eslrc`/`ttml` at the empty
string whenever the `yrc` input is empty; the `lrc` field is always the
merged-LRC result (and exactly the original `lrc` text when the
translation input is blank); TTML conversion fails — with its named error
— exactly when no valid YRC line was parsed, and that failure leaves only
the `ttml` field empty while `eslrc` (whose conversion never fails) and
`lrc` are still produced; no conversion failure aborts the response. -/
theorem buildResponse_fields :
    ∀ (sortFn : List MetaLine → List MetaLine) (d : LyricDataM),
      (d.yrc = [] →
        (buildResponse sortFn d).eslrc = [] ∧ (buildResponse sortFn d).ttml = [])
      ∧ ((buildResponse sortFn d).lrc = mergeLrcWithTranslation sortFn d.lrc d.trans)
      ∧ (trimSpace d.trans = [] → (buildResponse sortFn d).lrc = d.lrc)
      ∧ (convertYrcToTtml sortFn d = .error (gs "未找到有效的YRC歌词行") ↔
          parseYrcToLines d.yrc = [])
      ∧ (parseYrcToLines d.yrc ≠ [] → ∃ out, convertYrcToTtml sortFn d = .ok out)
      ∧ (d.yrc ≠ [] → parseYrcToLines d.yrc = [] →
          (buildResponse sortFn d).ttml = [] ∧
          convertYrcToEnhancedLrc sortFn d.yrc d.lrc d.trans d.roma =
            .ok ((buildResponse sortFn d).eslrc)) := by
  intro sortFn d
  refine ⟨?_, ?_, ?_, ?_, ?_, ?_⟩
  · intro hy
    constructor <;> simp [buildResponse, hy]
  · unfold buildResponse
    split <;> rfl
  · intro ht
    unfold buildResponse
    split <;> simp [mergeLrcWithTranslation, ht]
  · by_cases hp : parseYrcToLines d.yrc = [] <;> simp [convertYrcToTtml, hp]
  · intro hp
    unfold convertYrcToTtml
    dsimp only
    rw [if_neg hp]
    exact ⟨_, rfl⟩
  · intro hy hp
    have hconv : convertYrcToTtml sortFn d = .error (gs "未找到有效的YRC歌词行") := by
      simp [convertYrcToTtml, hp]
    constructor
    · simp [buildResponse, hy, hconv]
    · simp [buildResponse, hy, convertYrcToEnhancedLrc]

/-- Witness for C9: with a non-empty `yrc` input that contains no valid
YRC line, the TTML field is empty while the `lrc` field (translation
input blank, so passthrough) and the `eslrc` field are still produced. -/
theorem buildResponse_fields_witness :
    (buildResponse goSortByTime ⟨gs "[00:00.00]hi", [], gs "[x", []⟩).lrc =
      gs "[00:00.00]hi" ∧
    (buildResponse goSortByTime ⟨gs "[00:00.00]hi", [], gs "[x", []⟩).ttml = [] ∧
    convertYrcToEnhancedLrc goSortByTime (gs "[x") (gs "[00:00.00]hi") [] [] =
      .ok ((buildResponse goSortByTime ⟨gs "[00:00.00]hi", [], gs "[x", []⟩).eslrc) := by
  have h := buildResponse_fields goSortByTime ⟨gs "[00:00.00]hi", [], gs "[x", []⟩
  exact ⟨h.2.2.1 (by decide),
    (h.2.2.2.2.2 (by decide) (by decide)).1,
    (h.2.2.2.2.2 (by decide) (by decide)).2⟩

end LyricApi
